import Mathlib

/-!
Verification development for the Personal-Cloud-Backup repository.

The Python sources are shallowly embedded as Lean definitions:

* `sqlite` tables (`backups`, `sync_status`, from `src/database.py`) become
  lists of records; SQL queries become list folds/filters mirroring the
  `WHERE` clauses.
* `datetime` values are modelled as `Nat` timestamps: the code stores ISO-8601
  strings, whose ordering agrees with chronological ordering, and compares
  them either as parsed datetimes or lexicographically.
* The external cryptography / compression / hashing libraries
  (`cryptography.fernet`, `gzip`, `hashlib`) are not repository code; they are
  modelled symbolically: a Fernet token, a gzip stream and a SHA-256 digest are
  abstract constructor terms, so that the authenticated-encryption and
  inverse properties of the libraries hold by construction while every piece
  of repository logic (ordering of steps, which salt or checksum is used,
  error propagation) is translated faithfully from `src/`.
* Fallible operations (file reads, uploads, `os.path.getmtime`) are driven by
  explicit oracle inputs (`Option`/`Bool` fields of `BackupEnv`), standing for
  the outcome the OS / network would produce.
-/

namespace Pcb

/-! ### Symbolic models of the external libraries -/

/-- Symbolic SHA-256 digest (`hashlib.sha256(...).hexdigest()`): an abstract
term determined by the hashed bytes. -/
inductive Hash where
  | sha256H (data : List Nat)
deriving DecidableEq

/-- Symbolic gzip stream: `gzip.compress(data, compresslevel)` produces
`Gz.gz level data`; `gzJunk` stands for a byte string that is not a valid
gzip stream. -/
inductive Gz where
  | gz (level : Nat) (data : List Nat)
  | gzJunk (bytes : List Nat)
deriving DecidableEq

/-- `gzip.decompress`: inverts `gzip.compress`, raises (`none`) on junk. -/
def gunzip : Gz → Option (List Nat)
  | Gz.gz _ d => some d
  | Gz.gzJunk _ => none

/-- Symbolic PBKDF2-derived Fernet key (`EncryptionManager._get_fernet`,
`src/encryption.py` lines 17-29): determined by password and salt. -/
inductive FKey where
  | derived (password : List Nat) (salt : List Nat)
deriving DecidableEq

/-- Symbolic Fernet token: `tok key iv payload` is an honestly produced
token (IV models Fernet's internal randomness); `junkTok` is any byte
string that is not an honestly produced token. -/
inductive FTok where
  | tok (key : FKey) (iv : List Nat) (payload : Gz)
  | junkTok (bytes : List Nat)
deriving DecidableEq

/-- `Fernet(key).decrypt(token)`: Fernet is authenticated encryption, so
decryption succeeds exactly on tokens honestly produced under the same key
(the HMAC check fails otherwise, raising `InvalidToken`). -/
def fernetDecS (key : FKey) : FTok → Option Gz
  | FTok.tok k _ p => if k = key then some p else none
  | FTok.junkTok _ => none

/-- `EncryptionManager.encrypt_data` (`src/encryption.py` lines 31-43):
draws a fresh salt (here: the `salt` argument models `os.urandom(16)`),
derives a key from password and salt, encrypts, returns (token, salt). -/
def encrypt_data (password salt iv : List Nat) (data : Gz) : FTok × List Nat :=
  (FTok.tok (FKey.derived password salt) iv data, salt)

/-- `EncryptionManager.decrypt_data` (`src/encryption.py` lines 45-54):
derives the key from the supplied salt and decrypts; a failed Fernet
check raises (`none`). -/
def decrypt_data (password : List Nat) (t : FTok) (salt : List Nat) : Option Gz :=
  fernetDecS (FKey.derived password salt) t

/-- `bytes.hex()` used at `src/backup_engine.py` line 197: the salt is stored
in the catalog as its hex string, modelled as the list of nibble values. -/
def saltHexEncode (bs : List Nat) : List Nat :=
  bs.foldr (fun b acc => b / 16 :: b % 16 :: acc) []

/-- `bytes.fromhex` used at `src/backup_engine.py` line 265. -/
def saltHexDecode : List Nat → List Nat
  | h :: l :: rest => (h * 16 + l) :: saltHexDecode rest
  | _ => []

/-! ### Database model (`src/database.py`) -/

/-- One row of the `backups` table (schema at `src/database.py` lines 31-48).
The JSON `metadata` column is not modelled (no claim depends on it). -/
structure BackupRow where
  id : Nat
  file_path : String
  original_size : Nat
  compressed_size : Nat
  encrypted_size : Nat
  blob_name : String
  backup_date : Nat
  checksum : Hash
  version : Nat
  device_id : String
  salt : List Nat
  is_deleted : Bool
deriving DecidableEq

/-- One row of the `sync_status` table (schema at lines 50-61). -/
structure SyncRow where
  file_path : String
  last_modified : Nat
  last_backup : Option Nat
  status : String
  error_message : Option String
  device_id : String
deriving DecidableEq

/-- The `WHERE file_path = ? AND device_id = ? AND is_deleted = FALSE`
condition used throughout `src/database.py`. -/
def matchesND (fp did : String) (r : BackupRow) : Bool :=
  r.file_path == fp && r.device_id == did && !r.is_deleted

/-- SQL `MAX` aggregation step over the `version` column: NULL absorbs the
first value. -/
def maxStep (acc : Option Nat) (r : BackupRow) : Option Nat :=
  match acc with
  | none => some r.version
  | some m => some (max m r.version)

/-- `SELECT MAX(version) ... WHERE file_path = ? AND device_id = ? AND
is_deleted = FALSE` (`src/database.py` lines 122-125); `none` models SQL
NULL on an empty selection. -/
def sqlMaxVersion (db : List BackupRow) (fp did : String) : Option Nat :=
  (db.filter (matchesND fp did)).foldl maxStep none

/-- `DatabaseManager.get_next_version` (`src/database.py` lines 119-128):
`(result[0] or 0) + 1`. -/
def get_next_version (db : List BackupRow) (fp did : String) : Nat :=
  (sqlMaxVersion db fp did).getD 0 + 1

/-- Version rule as the SPEC words it (for claim C1 only): maximum version
over ALL rows for the pair, soft-deleted rows included, plus 1. -/
def specNextVersionAllRows (db : List BackupRow) (fp did : String) : Nat :=
  ((db.filter (fun r => r.file_path == fp && r.device_id == did)).foldl
    (fun acc r => max acc r.version) 0) + 1

/-- Aggregation step selecting the row of maximal `version` (the first row
of `ORDER BY version DESC`). -/
def latestStep (acc : Option BackupRow) (r : BackupRow) : Option BackupRow :=
  match acc with
  | none => some r
  | some m => if m.version < r.version then some r else some m

/-- `DatabaseManager.get_latest_backup` (lines 142-145): first row of
`get_file_versions`, i.e. the matching non-deleted row of maximal version
(`ORDER BY version DESC`; versions are unique by the table constraint). -/
def get_latest_backup (db : List BackupRow) (fp did : String) :
    Option BackupRow :=
  (db.filter (matchesND fp did)).foldl latestStep none

/-- `DatabaseManager.get_backup_by_id` (lines 147-156):
`WHERE id = ? AND is_deleted = FALSE`. -/
def get_backup_by_id (db : List BackupRow) (backup_id : Nat) : Option BackupRow :=
  db.find? (fun r => r.id == backup_id && !r.is_deleted)

/-- SQLite `AUTOINCREMENT` row id: one more than every id ever used; with
rows never physically removed this is `max id + 1`. -/
def nextRowId (db : List BackupRow) : Nat :=
  db.foldl (fun acc r => max acc r.id) 0 + 1

/-- `DatabaseManager.update_sync_status` (lines 172-188): `INSERT OR REPLACE`
on the `UNIQUE(file_path, device_id)` key, supplying columns
(file_path, last_modified, status, error_message, device_id) only — the
omitted `last_backup` column is therefore reset to NULL. -/
def update_sync_status (tbl : List SyncRow) (fp did : String)
    (last_modified : Nat) (status : String) (error_message : Option String) :
    List SyncRow :=
  tbl.filter (fun r => !(r.file_path == fp && r.device_id == did)) ++
    [{ file_path := fp, last_modified := last_modified, last_backup := none,
       status := status, error_message := error_message, device_id := did }]

/-- The `INSERT OR REPLACE INTO sync_status ... 'completed'` step of
`add_backup_record` (`src/database.py` lines 104-109): here `last_backup`
IS supplied (`datetime.now()`). -/
def sync_upsert_completed (tbl : List SyncRow) (fp did : String) (now : Nat) :
    List SyncRow :=
  tbl.filter (fun r => !(r.file_path == fp && r.device_id == did)) ++
    [{ file_path := fp, last_modified := now, last_backup := some now,
       status := "completed", error_message := none, device_id := did }]

/-- `DatabaseManager.get_files_needing_backup` (lines 158-170). SQL three-way
logic: `last_modified > last_backup` is NULL (not satisfied) when
`last_backup` is NULL, which the separate `last_backup IS NULL` disjunct
catches. -/
def get_files_needing_backup (tbl : List SyncRow) (did : String) : List String :=
  (tbl.filter (fun r =>
    r.device_id == did &&
      (r.status == "pending" ||
        (match r.last_backup with
         | none => true
         | some lb => decide (lb < r.last_modified))))).map (fun r => r.file_path)

/-- `DatabaseManager.add_backup_record` (lines 82-117): recomputes the next
version, inserts the row, upserts the sync status to 'completed', returns
the new row id (`cursor.lastrowid`). -/
def add_backup_record (db : List BackupRow) (sync : List SyncRow)
    (fp : String) (osz csz esz : Nat) (blob : String) (checksum : Hash)
    (did : String) (saltHex : List Nat) (now : Nat) :
    List BackupRow × List SyncRow × Nat :=
  let version := get_next_version db fp did
  let rid := nextRowId db
  let row : BackupRow :=
    { id := rid, file_path := fp, original_size := osz, compressed_size := csz,
      encrypted_size := esz, blob_name := blob, backup_date := now,
      checksum := checksum, version := version, device_id := did,
      salt := saltHex, is_deleted := false }
  (db ++ [row], sync_upsert_completed sync fp did now, rid)

/-! ### Retention (`DatabaseManager.cleanup_old_versions`, lines 190-249) -/

/-- Number of matching non-deleted rows: the `COUNT(*) ... GROUP BY file_path`
of the first cleanup query (lines 195-201). -/
def countND (db : List BackupRow) (did fp : String) : Nat :=
  db.countP (matchesND fp did)

/-- Number of matching non-deleted rows with a strictly higher version: row
`r` is skipped by `ORDER BY version DESC LIMIT -1 OFFSET max_versions`
(lines 209-214) exactly when fewer than `max_versions` rows rank above it. -/
def rankAbove (db : List BackupRow) (fp did : String) (v : Nat) : Nat :=
  db.countP (fun s => matchesND fp did s && decide (v < s.version))

/-- Effect of the per-file count step of `cleanup_old_versions` on one row:
rows of files whose non-deleted count exceeds `max_versions` are marked
deleted unless they are among the `max_versions` highest versions
(lines 207-221). Counts are taken over the pre-cleanup table, as the code
snapshots `files_to_clean` first and never re-reads rows it marks. -/
def countStepFn (db : List BackupRow) (max_versions : Nat) (did : String)
    (r : BackupRow) : BackupRow :=
  if r.device_id = did ∧ r.is_deleted = false ∧
      max_versions < countND db did r.file_path ∧
      max_versions ≤ rankAbove db r.file_path did r.version
  then { r with is_deleted := true } else r

/-- First phase of `cleanup_old_versions`: keep only the newest
`max_versions` versions per file (lines 194-221). -/
def cleanup_count_step (db : List BackupRow) (max_versions : Nat)
    (did : String) : List BackupRow :=
  db.map (countStepFn db max_versions did)

/-- Effect of the retention-days step on one row: non-deleted rows of the
device with `backup_date < cutoff_date` are marked deleted (lines 223-234);
`cutoff_date` models `(now - timedelta(days=retention_days)).isoformat()`. -/
def retentionFn (cutoff_date : Nat) (did : String) (r : BackupRow) : BackupRow :=
  if r.device_id = did ∧ r.is_deleted = false ∧ r.backup_date < cutoff_date
  then { r with is_deleted := true } else r

/-- `DatabaseManager.cleanup_old_versions` (lines 190-249), table effect:
count step then retention step. The returned `(cleaned_count, space_freed)`
pair and the `cleanup_log` insert are not modelled (no claim uses them). -/
def cleanup_old_versions (db : List BackupRow) (max_versions cutoff_date : Nat)
    (did : String) : List BackupRow :=
  (cleanup_count_step db max_versions did).map (retentionFn cutoff_date did)

/-! ### Engine state and pipeline (`src/backup_engine.py`) -/

/-- Global state: catalog tables, the Azure blob store, and the local
filesystem (restore destinations), both as association lists where the
most recent binding (head) wins. -/
structure SysState where
  backups : List BackupRow
  sync : List SyncRow
  store : List (String × FTok)
  files : List (String × List Nat)
deriving DecidableEq

/-- Blob upload with `overwrite=True`: the new binding shadows any old one. -/
def storePut (st : List (String × FTok)) (name : String) (tk : FTok) :
    List (String × FTok) :=
  (name, tk) :: st

/-- `AzureStorageManager.download_blob`: `none` models
`ResourceNotFoundError`. -/
def storeGet (st : List (String × FTok)) (name : String) : Option FTok :=
  (st.find? (fun p => p.1 == name)).map (fun p => p.2)

/-- `open(path, 'wb').write(data)`: overwrite the destination. -/
def filesPut (fs : List (String × List Nat)) (path : String)
    (data : List Nat) : List (String × List Nat) :=
  (path, data) :: fs

/-- Filesystem lookup; `none` means the path does not exist. -/
def filesGet (fs : List (String × List Nat)) (path : String) :
    Option (List Nat) :=
  (fs.find? (fun p => p.1 == path)).map (fun p => p.2)

/-- Oracle inputs driving one `backup_file` call: results of the OS-dependent
checks, the bytes the file read yields (`none` = `open`/`read` raises), the
result of the handler's second `os.path.getmtime` call at line 225
(`none` = it raises), the entropy consumed by encryption, the upload
outcome, and the clock. -/
structure BackupEnv where
  device_id : String
  password : List Nat
  compression_level : Nat
  shouldBackup : Bool
  needsBu : Bool
  content : Option (List Nat)
  mtimeAtHandler : Option Nat
  saltBytes : List Nat
  iv : List Nat
  uploadOk : Bool
  now : Nat
  errMsg : String
deriving DecidableEq

/-- Result of `BackupEngine.backup_file`: `success` = returned a backup-info
dict; `skipped` = returned `None` without entering the `except` handler;
`failed` = the handler ran (sync status set to 'error') and `None` was
returned; `escalated` = the handler's own `getmtime` raised, so the
exception propagated to the caller. -/
inductive BackupOutcome where
  | success (backupId version : Nat)
  | skipped
  | failed
  | escalated
deriving DecidableEq

/-- The `except` handler of `backup_file` (`src/backup_engine.py`
lines 220-228): re-fetches the mtime (which raises if the file is gone,
escalating the exception) and upserts the sync status to 'error'. -/
def handleBackupError (st : SysState) (env : BackupEnv) (fp : String) :
    SysState × BackupOutcome :=
  match env.mtimeAtHandler with
  | none => (st, BackupOutcome.escalated)
  | some mt =>
      let sync2 :=
        update_sync_status st.sync fp env.device_id mt "error"
          (some env.errMsg)
      ({ st with sync := sync2 }, BackupOutcome.failed)

/-- `AzureStorageManager.generate_blob_name` (`src/azure_client.py`
lines 297-309); the year/month formatting and path sanitisation are folded
into the numeric timestamp and the raw path. -/
def generate_blob_name (did fp : String) (version ts : Nat) : String :=
  did ++ "/" ++ toString ts ++ "/" ++ fp ++ "/v" ++ toString version ++ "_" ++
    toString ts ++ ".backup"

/-- Model payload size of a symbolic gzip stream (`len(compressed_data)`). -/
def gzSize : Gz → Nat
  | Gz.gz _ d => d.length
  | Gz.gzJunk b => b.length

/-- Model payload size of a symbolic Fernet token (`len(encrypted_data)`). -/
def ftokSize : FTok → Nat
  | FTok.tok _ iv p => iv.length + gzSize p
  | FTok.junkTok b => b.length

/-- `BackupEngine.backup_file` (`src/backup_engine.py` lines 110-228):
validate, read, hash, compress, encrypt, upload, and only then commit the
catalog record; any raised step diverts to `handleBackupError`. -/
def backup_file (st : SysState) (env : BackupEnv) (fp : String) :
    SysState × BackupOutcome :=
  if env.shouldBackup = false then (st, BackupOutcome.skipped)
  else if env.needsBu = false then (st, BackupOutcome.skipped)
  else
    match env.content with
    | none => handleBackupError st env fp
    | some data =>
        let checksum := Hash.sha256H data
        let compressed := Gz.gz env.compression_level data
        let pair := encrypt_data env.password env.saltBytes env.iv compressed
        let version := get_next_version st.backups fp env.device_id
        let blob := generate_blob_name env.device_id fp version env.now
        if env.uploadOk = false then handleBackupError st env fp
        else
          let store2 := storePut st.store blob pair.1
          let triple := add_backup_record st.backups st.sync fp data.length
            (gzSize compressed) (ftokSize pair.1) blob checksum env.device_id
            (saltHexEncode pair.2) env.now
          ({ backups := triple.1, sync := triple.2.1, store := store2,
             files := st.files }, BackupOutcome.success triple.2.2 version)

/-- `BackupEngine.needs_backup` (`src/backup_engine.py` lines 63-93):
`mtimeRes`/`hashRes` are the oracle results of `os.path.getmtime` and
`generate_file_hash` (`none` = the call raised, caught by the outer
`except`, which returns `True`). -/
def needs_backup (db : List BackupRow) (did fp : String)
    (mtimeRes : Option Nat) (hashRes : Option Hash) : Bool :=
  match mtimeRes with
  | none => true
  | some mt =>
      match get_latest_backup db fp did with
      | none => true
      | some latest =>
          if latest.backup_date < mt then true
          else
            match hashRes with
            | none => true
            | some h => if h = latest.checksum then false else true

/-- Python `str.strip()` (used on the restore path at
`src/backup_engine.py` line 249): drop leading and trailing whitespace. -/
def pyStrip (s : String) : String :=
  String.mk
    (((s.data.dropWhile Char.isWhitespace).reverse.dropWhile
      Char.isWhitespace).reverse)

/-- Filesystem operations `restore_file` performs, for claims about the
write discipline. -/
inductive FsOp where
  | write (path : String) (data : List Nat)
  | rename (src dst : String)
deriving DecidableEq

/-- `BackupEngine.restore_file` (`src/backup_engine.py` lines 230-303):
path check, record lookup, download, decrypt with the record's salt,
gunzip, checksum check, then a single direct write to the destination.
Every failing step returns `False` (raises are caught by the outer
`except`, which also returns `False`). The third component lists the
filesystem operations performed. -/
def restore_file (st : SysState) (password : List Nat) (backup_id : Nat)
    (restore_path : String) : SysState × Bool × List FsOp :=
  if pyStrip restore_path = "" then (st, false, [])
  else
    match get_backup_by_id st.backups backup_id with
    | none => (st, false, [])
    | some r =>
        match storeGet st.store r.blob_name with
        | none => (st, false, [])
        | some encTok =>
            match decrypt_data password encTok (saltHexDecode r.salt) with
            | none => (st, false, [])
            | some compressed =>
                match gunzip compressed with
                | none => (st, false, [])
                | some data =>
                    if Hash.sha256H data = r.checksum then
                      ({ st with
                          files := filesPut st.files (pyStrip restore_path)
                            data },
                        true, [FsOp.write (pyStrip restore_path) data])
                    else (st, false, [])

/-- `BackupEngine.add_to_backup_queue` (`src/backup_engine.py`
lines 362-369): append each path not already present. -/
def add_to_backup_queue (queue : List String) (paths : List String) :
    List String :=
  paths.foldl (fun acc p => if p ∈ acc then acc else acc ++ [p]) queue

/-- The drain step of `BackupEngine.process_backup_queue` (lines 377-384):
copy the queue as the work list and clear it. -/
def process_backup_queue_drain (queue : List String) :
    List String × List String :=
  (queue, [])

/-! ### Azure upload model (`src/azure_client.py`) -/

/-- Observable operations of one `upload_blob` attempt: staging a block
(with its attempt number and bytes), a backoff sleep, or the final
`commit_block_list` call. -/
inductive UpOp where
  | stage (blockIdx attemptNo : Nat) (data : List Nat)
  | backoff (secs : Nat)
  | commit (nBlocks : Nat)
deriving DecidableEq

/-- `block_size = 1024 * 1024` (`src/azure_client.py` line 119). -/
def blockSize : Nat := 1024 * 1024

/-- The `5 * 1024 * 1024` threshold of line 70. -/
def blockUploadThreshold : Nat := 5 * 1024 * 1024

/-- Path selection at line 70: `if data_size > 5 * 1024 * 1024` — block-based
upload for strictly larger payloads, standard upload otherwise. -/
def usesBlockUpload (data_size : Nat) : Bool :=
  decide (blockUploadThreshold < data_size)

/-- Number of blocks produced by `range(0, data_size, block_size)`. -/
def numBlocks (data_size bsz : Nat) : Nat :=
  (data_size + bsz - 1) / bsz

/-- `block_data = data[i:i+block_size]` at line 137, with `i = j * bsz`. -/
def blockData (data : List Nat) (bsz j : Nat) : List Nat :=
  (data.drop (j * bsz)).take bsz

/-- The `for block_attempt in range(3)` retry loop (lines 141-160): `fails`
is the number of attempts the network makes fail. Each failed attempt but
the last sleeps 1 second (line 158); the third failure raises (line 160).
The last argument is the remaining attempts (initially 3). -/
def stageAttempts (idx : Nat) (bdata : List Nat) (fails attemptNo : Nat) :
    Nat → List UpOp × Bool
  | 0 => ([], false)
  | rem + 1 =>
      if attemptNo < fails then
        if rem = 0 then ([UpOp.stage idx attemptNo bdata], false)
        else
          let p := stageAttempts idx bdata fails (attemptNo + 1) rem
          (UpOp.stage idx attemptNo bdata :: UpOp.backoff 1 :: p.1, p.2)
      else ([UpOp.stage idx attemptNo bdata], true)

/-- The outer block loop of `_upload_in_blocks` (lines 135-163): stage each
block in order, aborting on a block that exhausts its attempts. `j` is the
current block index, the last argument the number of blocks left. -/
def blocksGo (data : List Nat) (bsz : Nat) (fails : Nat → Nat) (j : Nat) :
    Nat → List UpOp × Bool
  | 0 => ([], true)
  | rem + 1 =>
      let p := stageAttempts j (blockData data bsz j) (fails j) 0 3
      if p.2 then
        let q := blocksGo data bsz fails (j + 1) rem
        (p.1 ++ q.1, q.2)
      else (p.1, false)

/-- `AzureStorageManager._upload_in_blocks` (lines 113-181): stage all
blocks, then a single `commit_block_list` (lines 165-171). -/
def upload_in_blocks (data : List Nat) (fails : Nat → Nat) :
    List UpOp × Bool :=
  if (blocksGo data blockSize fails 0 (numBlocks data.length blockSize)).2 then
    ((blocksGo data blockSize fails 0 (numBlocks data.length blockSize)).1 ++
      [UpOp.commit (numBlocks data.length blockSize)], true)
  else ((blocksGo data blockSize fails 0 (numBlocks data.length blockSize)).1,
    false)

/-- Recogniser for `commit` trace entries. -/
def isCommitOp : UpOp → Bool
  | UpOp.commit _ => true
  | _ => false

/-- Recogniser for stage attempts of block `j`. -/
def isStageOf (j : Nat) : UpOp → Bool
  | UpOp.stage i _ _ => i == j
  | _ => false

/-! ### Concrete states used to evaluate the definitions -/

/-- Empty system state. -/
def exSt : SysState := { backups := [], sync := [], store := [], files := [] }

/-- A fully successful environment for one backup of bytes `[3, 250]`. -/
def exEnv : BackupEnv :=
  { device_id := "dev", password := [1], compression_level := 6,
    shouldBackup := true, needsBu := true, content := some [3, 250],
    mtimeAtHandler := some 10, saltBytes := [171, 5], iv := [9],
    uploadOk := true, now := 100, errMsg := "boom" }

/-- Environment where the file has vanished: the read raises and so does the
handler's `getmtime`. -/
def exEnvGone : BackupEnv :=
  { exEnv with content := none, mtimeAtHandler := none }

/-- A soft-deleted version-1 row for `("f", "d")`. -/
def exRowDeleted : BackupRow :=
  { id := 1, file_path := "f", original_size := 4, compressed_size := 3,
    encrypted_size := 5, blob_name := "b1", backup_date := 50,
    checksum := Hash.sha256H [3], version := 1, device_id := "d",
    salt := [], is_deleted := true }

/-- Catalog holding only the tombstoned row. -/
def exDbDeleted : List BackupRow := [exRowDeleted]

/-- State where the restore destination `/tmp/out` already holds bytes. -/
def exStOut : SysState :=
  { backups := [], sync := [], store := [], files := [("/tmp/out", [7])] }

/-- Version-1 row of `("f", "d")`, not deleted. -/
def exRowV1 : BackupRow :=
  { id := 1, file_path := "f", original_size := 4, compressed_size := 3,
    encrypted_size := 5, blob_name := "b1", backup_date := 10,
    checksum := Hash.sha256H [1], version := 1, device_id := "d",
    salt := [], is_deleted := false }

/-- Version-2 row of `("f", "d")`, not deleted. -/
def exRowV2 : BackupRow :=
  { id := 2, file_path := "f", original_size := 4, compressed_size := 3,
    encrypted_size := 5, blob_name := "b2", backup_date := 11,
    checksum := Hash.sha256H [2], version := 2, device_id := "d",
    salt := [], is_deleted := false }

/-- Two live versions of the same file. -/
def exCleanDb : List BackupRow := [exRowV1, exRowV2]

/-- Fault environment making every block fail exactly once. -/
def exFails : Nat → Nat := fun _ => 1

/-! ### Helper lemmas -/

theorem maxStep_spec (acc : Option Nat) (r : BackupRow) :
    ∃ z, maxStep acc r = some z ∧ r.version ≤ z ∧
      ∀ y, acc = some y → y ≤ z := by
  cases acc with
  | none => exact ⟨r.version, rfl, le_refl _, fun y hy => by simp at hy⟩
  | some m =>
    refine ⟨max m r.version, rfl, le_max_right _ _, fun y hy => ?_⟩
    injection hy with hy
    subst hy
    exact le_max_left _ _

theorem maxFold_acc_le (l : List BackupRow) (acc : Option Nat) (y : Nat)
    (hy : acc = some y) : y ≤ (l.foldl maxStep acc).getD 0 := by
  induction l generalizing acc y with
  | nil => simp [hy]
  | cons a t ih =>
    rcases maxStep_spec acc a with ⟨z, hz, _, hacc⟩
    have hyz : y ≤ z := hacc y hy
    have := ih (maxStep acc a) z hz
    rw [List.foldl_cons]
    omega

theorem maxFold_mem_le (l : List BackupRow) (acc : Option Nat) (r : BackupRow)
    (hr : r ∈ l) : r.version ≤ (l.foldl maxStep acc).getD 0 := by
  induction l generalizing acc with
  | nil => exact absurd hr (List.not_mem_nil r)
  | cons a t ih =>
    rw [List.foldl_cons]
    rcases List.mem_cons.mp hr with h | h
    · subst h
      rcases maxStep_spec acc r with ⟨z, hz, hrz, _⟩
      have := maxFold_acc_le t (maxStep acc r) z hz
      omega
    · exact ih (maxStep acc a) h

theorem version_lt_get_next (db : List BackupRow) (fp did : String)
    (r : BackupRow) (hr : r ∈ db) (hm : matchesND fp did r = true) :
    r.version < get_next_version db fp did := by
  have hmem : r ∈ db.filter (matchesND fp did) := List.mem_filter.mpr ⟨hr, hm⟩
  have := maxFold_mem_le (db.filter (matchesND fp did)) none r hmem
  unfold get_next_version sqlMaxVersion
  omega

theorem get_next_version_of_empty (db : List BackupRow) (fp did : String)
    (h : ∀ r ∈ db, matchesND fp did r = false) :
    get_next_version db fp did = 1 := by
  have hfil : db.filter (matchesND fp did) = [] := by
    rw [List.filter_eq_nil_iff]
    intro a ha
    simp [h a ha]
  unfold get_next_version sqlMaxVersion
  rw [hfil]
  rfl

/-! ### Claim theorems -/

/-- C1 (amended): `get_next_version` returns one more than the maximum
version over the NON-deleted rows of `(file_path, device_id)` — so it is
at least 1, strictly exceeds every live version, and equals 1 when no live
row exists.  (The original claim — maximum including soft-deleted rows, so
versions are never reused — is refuted by `get_next_version_claim_cex`.) -/
theorem get_next_version_nd_max (db : List BackupRow) (fp did : String) :
    1 ≤ get_next_version db fp did ∧
    (∀ r ∈ db, matchesND fp did r = true →
      r.version < get_next_version db fp did) ∧
    ((∀ r ∈ db, matchesND fp did r = false) →
      get_next_version db fp did = 1) := by
  refine ⟨?_, ?_, get_next_version_of_empty db fp did⟩
  · unfold get_next_version
    omega
  · intro r hr hm
    exact version_lt_get_next db fp did r hr hm

/-- C1 (counterexample): on a catalog whose only row for `("f", "d")` is a
soft-deleted version 1, the code returns 1 — not 2 as the claim's
max-over-all-rows-including-deleted rule demands — and the returned number
coincides with the version of the tombstoned row, so version numbers ARE
reused after retention marks rows deleted. -/
theorem get_next_version_claim_cex :
    get_next_version exDbDeleted "f" "d" = 1 ∧
    specNextVersionAllRows exDbDeleted "f" "d" = 2 ∧
    exRowDeleted ∈ exDbDeleted ∧
    exRowDeleted.version = get_next_version exDbDeleted "f" "d" := by
  refine ⟨by decide, by decide, ?_, by decide⟩
  simp [exDbDeleted]

/-- C1 witness: evaluating the amended theorem's third conjunct on the
concrete tombstoned catalog. -/
theorem get_next_version_nd_max_witness :
    get_next_version exDbDeleted "f" "d" = 1 :=
  (get_next_version_nd_max exDbDeleted "f" "d").2.2 (by decide)

/-- C10: `update_sync_status` replaces the whole `sync_status` row for the
pair via INSERT OR REPLACE without supplying `last_backup`, so the stored
row has `last_backup = NULL`; consequently `get_files_needing_backup`
reports the path through its `last_backup IS NULL` disjunct, whatever the
status written. -/
theorem update_sync_status_resets_last_backup (tbl : List SyncRow)
    (fp did : String) (lm : Nat) (status : String) (err : Option String) :
    (update_sync_status tbl fp did lm status err).find?
        (fun r => r.file_path == fp && r.device_id == did) =
      some { file_path := fp, last_modified := lm, last_backup := none,
             status := status, error_message := err, device_id := did } ∧
    fp ∈ get_files_needing_backup (update_sync_status tbl fp did lm status err)
      did := by
  constructor
  · rw [update_sync_status, List.find?_append]
    have h1 : (tbl.filter
        (fun r => !(r.file_path == fp && r.device_id == did))).find?
        (fun r => r.file_path == fp && r.device_id == did) = none := by
      rw [List.find?_eq_none]
      intro x hx
      have hpx := List.of_mem_filter hx
      simp only [Bool.not_eq_true'] at hpx
      simp [hpx]
    rw [h1]
    simp [List.find?]
  · unfold get_files_needing_backup
    refine List.mem_map.mpr
      ⟨{ file_path := fp, last_modified := lm, last_backup := none,
         status := status, error_message := err, device_id := did },
        List.mem_filter.mpr ⟨?_, ?_⟩, rfl⟩
    · exact List.mem_append_right _ (List.mem_singleton.mpr rfl)
    · simp

/-- C8: in the symbolic model of Fernet, `decrypt_data` succeeds exactly on
tokens honestly produced under the key derived from the supplied salt, and
then returns exactly that token's plaintext: any tampered token and any
wrong salt make it fail, and it never silently returns wrong plaintext.
The second conjunct specialises this to an honest encryption: decryption
under salt `salt2` succeeds iff `salt2` is the salt drawn at encryption
time. -/
theorem decrypt_data_authenticated (pw salt iv : List Nat) (payload : Gz)
    (t : FTok) (salt2 : List Nat) (d2 : Gz) :
    (decrypt_data pw t salt = some d2 ↔
      ∃ iv2, t = FTok.tok (FKey.derived pw salt) iv2 d2) ∧
    (decrypt_data pw (encrypt_data pw salt iv payload).1 salt2 =
      if salt2 = salt then some payload else none) := by
  constructor
  · cases t with
    | tok k iv2 p =>
      simp only [decrypt_data, fernetDecS]
      by_cases hk : k = FKey.derived pw salt
      · subst hk
        rw [if_pos rfl]
        simp only [Option.some_inj]
        constructor
        · rintro rfl
          exact ⟨iv2, rfl⟩
        · rintro ⟨iv3, h⟩
          cases h
          rfl
      · rw [if_neg hk]
        constructor
        · intro h
          simp at h
        · rintro ⟨iv3, h⟩
          cases h
          exact absurd rfl hk
    | junkTok b =>
      simp only [decrypt_data, fernetDecS]
      constructor
      · intro h
        simp at h
      · rintro ⟨iv3, h⟩
        cases h
  · simp only [decrypt_data, encrypt_data, fernetDecS]
    by_cases hs : salt2 = salt
    · subst hs
      simp
    · have hk : FKey.derived pw salt ≠ FKey.derived pw salt2 := by
        intro h
        injection h with h1 h2
        exact hs h2.symm
      rw [if_neg hk, if_neg hs]

theorem latestStep_ne_none (acc : Option BackupRow) (r : BackupRow) :
    latestStep acc r ≠ none := by
  cases acc with
  | none => simp [latestStep]
  | some m =>
    simp only [latestStep]
    split
    · simp
    · simp

theorem foldLatest_ne_none (l : List BackupRow) (acc : Option BackupRow)
    (hacc : acc ≠ none) : l.foldl latestStep acc ≠ none := by
  induction l generalizing acc with
  | nil => exact hacc
  | cons a t ih =>
    rw [List.foldl_cons]
    exact ih (latestStep acc a) (latestStep_ne_none acc a)

theorem get_latest_backup_none_iff (db : List BackupRow) (fp did : String) :
    get_latest_backup db fp did = none ↔
      ∀ r ∈ db, matchesND fp did r = false := by
  unfold get_latest_backup
  constructor
  · intro h r hr
    cases hmd : matchesND fp did r with
    | false => rfl
    | true =>
      exfalso
      have hmem : r ∈ db.filter (matchesND fp did) :=
        List.mem_filter.mpr ⟨hr, hmd⟩
      rcases hfil : db.filter (matchesND fp did) with _ | ⟨b, t⟩
      · rw [hfil] at hmem
        exact absurd hmem (List.not_mem_nil r)
      · rw [hfil, List.foldl_cons] at h
        exact foldLatest_ne_none t (latestStep none b)
          (latestStep_ne_none none b) h
  · intro h
    have hfil : db.filter (matchesND fp did) = [] :=
      List.filter_eq_nil_iff.mpr (by intro a ha; simp [h a ha])
    rw [hfil]
    rfl

/-- C6: `needs_backup` returns `true` exactly when no live record exists,
or the file's mtime is later than the latest record's `backup_date`, or
the file hash differs from the latest record's checksum; and whenever
either the mtime fetch or the hashing raises (oracle `none`), it returns
`true` (fail-open toward durability). -/
theorem needs_backup_spec (db : List BackupRow) (did fp : String)
    (mt : Nat) (h : Hash) (hashRes : Option Hash) :
    (get_latest_backup db fp did = none ↔
      ∀ r ∈ db, matchesND fp did r = false) ∧
    (needs_backup db did fp (some mt) (some h) = true ↔
      get_latest_backup db fp did = none ∨
        ∃ latest, get_latest_backup db fp did = some latest ∧
          (latest.backup_date < mt ∨ h ≠ latest.checksum)) ∧
    needs_backup db did fp none hashRes = true ∧
    needs_backup db did fp (some mt) none = true := by
  refine ⟨get_latest_backup_none_iff db fp did, ?_, rfl, ?_⟩
  · unfold needs_backup
    cases hl : get_latest_backup db fp did with
    | none => simp
    | some latest =>
      simp only [Option.some.injEq]
      by_cases hd : latest.backup_date < mt
      · rw [if_pos hd]
        constructor
        · intro _
          exact Or.inr ⟨latest, rfl, Or.inl hd⟩
        · intro _
          rfl
      · rw [if_neg hd]
        by_cases hh : h = latest.checksum
        · rw [if_pos hh]
          constructor
          · intro hfalse
            cases hfalse
          · rintro (hnone | ⟨l2, hl2, hcase⟩)
            · exact Option.noConfusion hnone
            · subst hl2
              rcases hcase with hlt | hne
              · exact absurd hlt hd
              · exact absurd hh hne
        · rw [if_neg hh]
          constructor
          · intro _
            exact Or.inr ⟨latest, rfl, Or.inr hh⟩
          · intro _
            rfl
  · unfold needs_backup
    cases hl : get_latest_backup db fp did with
    | none => rfl
    | some latest =>
      show (if latest.backup_date < mt then true else true) = true
      rw [ite_self]

theorem add_queue_core (paths : List String) :
    ∀ queue : List String, queue.Nodup →
      (add_to_backup_queue queue paths).Nodup ∧
      ∀ p, p ∈ add_to_backup_queue queue paths ↔ p ∈ queue ∨ p ∈ paths := by
  induction paths with
  | nil =>
    intro queue hq
    exact ⟨hq, fun p => by simp [add_to_backup_queue]⟩
  | cons a as ih =>
    intro queue hq
    have hstep : add_to_backup_queue queue (a :: as) =
        add_to_backup_queue (if a ∈ queue then queue else queue ++ [a]) as := by
      unfold add_to_backup_queue
      rw [List.foldl_cons]
    have hq2 : (if a ∈ queue then queue else queue ++ [a]).Nodup := by
      by_cases ham : a ∈ queue
      · rwa [if_pos ham]
      · rw [if_neg ham]
        simp [List.nodup_append, hq, ham]
    have hmem2 : ∀ p, p ∈ (if a ∈ queue then queue else queue ++ [a]) ↔
        p ∈ queue ∨ p = a := by
      intro p
      by_cases ham : a ∈ queue
      · rw [if_pos ham]
        constructor
        · exact Or.inl
        · rintro (hp | rfl)
          · exact hp
          · exact ham
      · rw [if_neg ham]
        simp
    rcases ih (if a ∈ queue then queue else queue ++ [a]) hq2 with ⟨hn, hm⟩
    rw [hstep]
    refine ⟨hn, fun p => ?_⟩
    rw [hm p, hmem2 p]
    constructor
    · rintro ((hp | rfl) | hp)
      · exact Or.inl hp
      · exact Or.inr (List.mem_cons_self _ _)
      · exact Or.inr (List.mem_cons_of_mem _ hp)
    · rintro (hp | hp)
      · exact Or.inl (Or.inl hp)
      · rcases List.mem_cons.mp hp with rfl | hp
        · exact Or.inl (Or.inr rfl)
        · exact Or.inr hp

/-- C9: the backup queue is a set: `add_to_backup_queue` inserts only paths
not already present, so on a duplicate-free queue the result is
duplicate-free, its members are exactly the old members plus the new
paths, and in the work list handed to a drain
(`process_backup_queue_drain`) every path occurs at most once — hence at
most one backup attempt per drain — while the queue itself is cleared. -/
theorem backup_queue_set (queue paths : List String) (hq : queue.Nodup) :
    (add_to_backup_queue queue paths).Nodup ∧
    (∀ p, p ∈ add_to_backup_queue queue paths ↔ p ∈ queue ∨ p ∈ paths) ∧
    (∀ p, (process_backup_queue_drain
      (add_to_backup_queue queue paths)).1.count p ≤ 1) ∧
    (process_backup_queue_drain (add_to_backup_queue queue paths)).2 = [] := by
  rcases add_queue_core paths queue hq with ⟨hn, hm⟩
  exact ⟨hn, hm, fun p => List.nodup_iff_count_le_one.mp hn p, rfl⟩

/-- C9 witness: enqueueing `"a"` twice into the empty queue leaves at most
one occurrence in the drained work list. -/
theorem backup_queue_set_witness :
    (process_backup_queue_drain
      (add_to_backup_queue [] ["a", "a"])).1.count "a" ≤ 1 :=
  (backup_queue_set [] ["a", "a"] List.nodup_nil).2.2.1 "a"

/-- C4 (amended): a failed `restore_file` performs no filesystem operation
at all and leaves the whole state — in particular the destination path's
previous content or absence — unchanged, because every failing step
(missing/deleted record, download, decryption, decompression, checksum
mismatch) occurs before the write; a successful restore performs exactly
one direct write to the destination, with no temp-file-and-rename step.
(The original claim's "destination does not exist after a failed restore"
and its atomic temp-sibling/fsync/rename mechanism are refuted by
`restore_file_claim_cex`.) -/
theorem restore_file_write_discipline (st : SysState) (pw : List Nat)
    (bid : Nat) (rp : String) :
    ((restore_file st pw bid rp).2.1 = false →
      (restore_file st pw bid rp).1 = st ∧
        (restore_file st pw bid rp).2.2 = []) ∧
    ((restore_file st pw bid rp).2.1 = true →
      ∃ d, (restore_file st pw bid rp).2.2 = [FsOp.write (pyStrip rp) d] ∧
        (restore_file st pw bid rp).1 =
          { st with files := filesPut st.files (pyStrip rp) d }) := by
  unfold restore_file
  by_cases h0 : pyStrip rp = ""
  · simp [h0]
  · rw [if_neg h0]
    cases hb : get_backup_by_id st.backups bid with
    | none => simp [hb]
    | some r =>
      cases hs : storeGet st.store r.blob_name with
      | none => simp [hb, hs]
      | some encTok =>
        cases hd : decrypt_data pw encTok (saltHexDecode r.salt) with
        | none => simp [hb, hs, hd]
        | some compressed =>
          cases hg : gunzip compressed with
          | none => simp [hb, hs, hd, hg]
          | some data =>
            by_cases hc : Hash.sha256H data = r.checksum
            · simp only [hb, hs, hd, hg, if_pos hc]
              refine ⟨fun h => ?_, fun _ => ⟨data, rfl, rfl⟩⟩
              simp at h
            · simp [hb, hs, hd, hg, hc]

/-- C4 (counterexample): with a file already present at `/tmp/out`, the
failed restore of an absent record leaves `/tmp/out` existing with its old
bytes — the claim's "after a failed restore the destination file does not
exist" is false — and the trace of a fully successful concrete restore is
a single direct `write` to the destination: no temp sibling, no fsync, no
rename is ever performed. -/
theorem restore_file_claim_cex :
    restore_file exStOut [] 1 "/tmp/out" = (exStOut, false, []) ∧
    filesGet exStOut.files "/tmp/out" = some [7] ∧
    (restore_file (backup_file exSt exEnv "f").1 exEnv.password 1 "/r").2.2 =
      [FsOp.write "/r" [3, 250]] := by
  refine ⟨by decide, by decide, by decide⟩

/-- C4 witness: the amended theorem evaluated at the failed concrete
restore. -/
theorem restore_file_write_discipline_witness :
    (restore_file exStOut [] 1 "/tmp/out").1 = exStOut ∧
    (restore_file exStOut [] 1 "/tmp/out").2.2 = [] :=
  (restore_file_write_discipline exStOut [] 1 "/tmp/out").1 (by decide)

theorem storeGet_put (stb : List (String × FTok)) (name : String) (tk : FTok) :
    storeGet (storePut stb name tk) name = some tk := by
  unfold storeGet storePut
  rw [List.find?_cons_of_pos _ (by simp)]
  rfl

/-- C5 (amended): `backup_file` commits a catalog record only after the
upload has succeeded — a `success` outcome implies `uploadOk`, exactly one
new row appended, and the uploaded object present in the store under the
row's blob name.  On a failure where the handler's `getmtime` succeeds, no
record is added and the sync status is upserted to `'error'` with the
message, surfacing the failure as a `None` result; but when the file
itself is gone the handler's own `getmtime` raises, so the sync status is
left untouched and the exception escalates (refuted part of the original
claim: see `backup_file_claim_cex`).  Skips change nothing. -/
theorem backup_file_commit_discipline (st : SysState) (env : BackupEnv)
    (fp : String) :
    (∀ st2 bid ver,
      backup_file st env fp = (st2, BackupOutcome.success bid ver) →
      env.uploadOk = true ∧
      ∃ row, st2.backups = st.backups ++ [row] ∧ row.id = bid ∧
        ∃ tk, storeGet st2.store row.blob_name = some tk) ∧
    (∀ st2, backup_file st env fp = (st2, BackupOutcome.failed) →
      st2.backups = st.backups ∧
      ∃ mt, env.mtimeAtHandler = some mt ∧
        st2.sync = update_sync_status st.sync fp env.device_id mt "error"
          (some env.errMsg)) ∧
    (∀ st2, backup_file st env fp = (st2, BackupOutcome.escalated) →
      st2 = st) ∧
    (∀ st2, backup_file st env fp = (st2, BackupOutcome.skipped) →
      st2 = st) := by
  refine ⟨?_, ?_, ?_, ?_⟩
  · intro st2 bid ver h
    unfold backup_file handleBackupError add_backup_record at h
    cases hsb : env.shouldBackup with
    | false => rw [hsb] at h; simp at h
    | true =>
      rw [hsb] at h
      cases hnb : env.needsBu with
      | false => simp [hnb] at h
      | true =>
        rw [hnb] at h
        cases hc : env.content with
        | none =>
          rw [hc] at h
          cases hmt : env.mtimeAtHandler with
          | none => rw [hmt] at h; simp at h
          | some mt => rw [hmt] at h; simp at h
        | some data =>
          rw [hc] at h
          cases hup : env.uploadOk with
          | false =>
            rw [hup] at h
            cases hmt : env.mtimeAtHandler with
            | none => rw [hmt] at h; simp at h
            | some mt => rw [hmt] at h; simp at h
          | true =>
            rw [hup] at h
            simp only [Bool.true_eq_false, if_false, ite_false, if_neg,
              Bool.false_eq_true, not_false_eq_true, reduceIte,
              Prod.mk.injEq, BackupOutcome.success.injEq] at h
            obtain ⟨h1, hbid, hver⟩ := h
            subst h1
            refine ⟨rfl, ?_⟩
            refine ⟨_, rfl, ?_, ?_⟩
            · exact hbid
            · exact ⟨_, storeGet_put _ _ _⟩
  · intro st2 h
    unfold backup_file handleBackupError at h
    cases hsb : env.shouldBackup with
    | false => rw [hsb] at h; simp at h
    | true =>
      rw [hsb] at h
      cases hnb : env.needsBu with
      | false => simp [hnb] at h
      | true =>
        rw [hnb] at h
        cases hc : env.content with
        | none =>
          rw [hc] at h
          cases hmt : env.mtimeAtHandler with
          | none => rw [hmt] at h; simp at h
          | some mt =>
            rw [hmt] at h
            simp only [Bool.true_eq_false, Bool.false_eq_true, reduceIte,
              Prod.mk.injEq] at h
            obtain ⟨h1, _⟩ := h
            subst h1
            exact ⟨rfl, mt, rfl, rfl⟩
        | some data =>
          rw [hc] at h
          cases hup : env.uploadOk with
          | false =>
            rw [hup] at h
            cases hmt : env.mtimeAtHandler with
            | none => rw [hmt] at h; simp at h
            | some mt =>
              rw [hmt] at h
              simp only [Bool.true_eq_false, Bool.false_eq_true, reduceIte,
                Prod.mk.injEq] at h
              obtain ⟨h1, _⟩ := h
              subst h1
              exact ⟨rfl, mt, rfl, rfl⟩
          | true => rw [hup] at h; simp at h
  · intro st2 h
    unfold backup_file handleBackupError at h
    cases hsb : env.shouldBackup with
    | false => rw [hsb] at h; simp at h
    | true =>
      rw [hsb] at h
      cases hnb : env.needsBu with
      | false => simp [hnb] at h
      | true =>
        rw [hnb] at h
        cases hc : env.content with
        | none =>
          rw [hc] at h
          cases hmt : env.mtimeAtHandler with
          | none =>
            rw [hmt] at h
            simp only [Bool.true_eq_false, Bool.false_eq_true, reduceIte,
              Prod.mk.injEq] at h
            exact h.1.symm
          | some mt => rw [hmt] at h; simp at h
        | some data =>
          rw [hc] at h
          cases hup : env.uploadOk with
          | false =>
            rw [hup] at h
            cases hmt : env.mtimeAtHandler with
            | none =>
              rw [hmt] at h
              simp only [Bool.true_eq_false, Bool.false_eq_true, reduceIte,
                Prod.mk.injEq] at h
              exact h.1.symm
            | some mt => rw [hmt] at h; simp at h
          | true => rw [hup] at h; simp at h
  · intro st2 h
    unfold backup_file handleBackupError at h
    cases hsb : env.shouldBackup with
    | false =>
      rw [hsb] at h
      simp only [Bool.true_eq_false, Bool.false_eq_true, reduceIte,
        Prod.mk.injEq] at h
      exact h.1.symm
    | true =>
      rw [hsb] at h
      cases hnb : env.needsBu with
      | false =>
        rw [hnb] at h
        simp only [Bool.true_eq_false, Bool.false_eq_true, reduceIte,
          Prod.mk.injEq] at h
        exact h.1.symm
      | true =>
        rw [hnb] at h
        cases hc : env.content with
        | none =>
          rw [hc] at h
          cases hmt : env.mtimeAtHandler with
          | none => rw [hmt] at h; simp at h
          | some mt => rw [hmt] at h; simp at h
        | some data =>
          rw [hc] at h
          cases hup : env.uploadOk with
          | false =>
            rw [hup] at h
            cases hmt : env.mtimeAtHandler with
            | none => rw [hmt] at h; simp at h
            | some mt => rw [hmt] at h; simp at h
          | true => rw [hup] at h; simp at h

/-- C5 (counterexample): when the file has vanished (the read raises and so
does the handler's `getmtime`), the backup fails but NO `'error'` sync
status is upserted — the sync table is untouched and the exception
escalates, contrary to the claim's "on failure of any step ... upserts the
file's SyncStatus to 'error'". -/
theorem backup_file_claim_cex :
    backup_file exSt exEnvGone "f" = (exSt, BackupOutcome.escalated) ∧
    (backup_file exSt exEnvGone "f").1.sync = [] := by
  exact ⟨by decide, by decide⟩

/-- C5 witness: the amended theorem's escalation conjunct evaluated on the
concrete vanished-file run. -/
theorem backup_file_commit_discipline_witness :
    (backup_file exSt exEnvGone "f").1 = exSt :=
  (backup_file_commit_discipline exSt exEnvGone "f").2.2.1
    (backup_file exSt exEnvGone "f").1 (by decide)

theorem saltHex_roundtrip (bs : List Nat) :
    saltHexDecode (saltHexEncode bs) = bs := by
  induction bs with
  | nil => rfl
  | cons b l ih =>
    show saltHexDecode (b / 16 :: b % 16 :: saltHexEncode l) = b :: l
    unfold saltHexDecode
    rw [ih]
    have hb : b / 16 * 16 + b % 16 = b := by omega
    rw [hb]

theorem idFold_acc_le (l : List BackupRow) (acc : Nat) :
    acc ≤ l.foldl (fun a r => max a r.id) acc := by
  induction l generalizing acc with
  | nil => simp
  | cons a t ih =>
    rw [List.foldl_cons]
    exact le_trans (le_max_left _ _) (ih (max acc a.id))

theorem idFold_mem_le (l : List BackupRow) (acc : Nat) (r : BackupRow)
    (hr : r ∈ l) : r.id ≤ l.foldl (fun a r => max a r.id) acc := by
  induction l generalizing acc with
  | nil => exact absurd hr (List.not_mem_nil r)
  | cons a t ih =>
    rw [List.foldl_cons]
    rcases List.mem_cons.mp hr with h | h
    · subst h
      exact le_trans (le_max_right _ _) (idFold_acc_le t _)
    · exact ih _ h

theorem nextRowId_gt (db : List BackupRow) (r : BackupRow) (hr : r ∈ db) :
    r.id < nextRowId db := by
  unfold nextRowId
  have := idFold_mem_le db 0 r hr
  omega

theorem get_backup_by_id_append_fresh (db : List BackupRow) (row : BackupRow)
    (hrow : row.is_deleted = false) (hfresh : ∀ r ∈ db, r.id ≠ row.id) :
    get_backup_by_id (db ++ [row]) row.id = some row := by
  unfold get_backup_by_id
  rw [List.find?_append]
  have h1 : db.find? (fun r => r.id == row.id && !r.is_deleted) = none := by
    rw [List.find?_eq_none]
    intro x hx hp
    simp only [Bool.and_eq_true, beq_iff_eq] at hp
    exact hfresh x hx hp.1
  rw [h1]
  simp [List.find?, hrow]

theorem filesGet_put (fs : List (String × List Nat)) (path : String)
    (data : List Nat) : filesGet (filesPut fs path data) path = some data := by
  unfold filesGet filesPut
  rw [List.find?_cons_of_pos _ (by simp)]
  rfl

theorem restore_file_success (backups : List BackupRow) (sync : List SyncRow)
    (store : List (String × FTok)) (files : List (String × List Nat))
    (pw : List Nat) (bid : Nat) (rp : String) (row : BackupRow) (tok : FTok)
    (compressed : Gz) (data : List Nat)
    (hrp1 : pyStrip rp = rp) (hrp2 : rp ≠ "")
    (hid : get_backup_by_id backups bid = some row)
    (hblob : storeGet store row.blob_name = some tok)
    (hdec : decrypt_data pw tok (saltHexDecode row.salt) = some compressed)
    (hgz : gunzip compressed = some data)
    (hck : Hash.sha256H data = row.checksum) :
    restore_file ⟨backups, sync, store, files⟩ pw bid rp =
      (⟨backups, sync, store, filesPut files rp data⟩, true,
        [FsOp.write rp data]) := by
  unfold restore_file
  rw [hrp1, if_neg hrp2]
  simp only [hid, hblob, hdec, hgz]
  rw [if_pos hck]

/-- C2: a successful `backup_file` followed by `restore_file` on the new
record's id round-trips: the restore succeeds, performs exactly one write
of the originally read bytes to the destination, the restored bytes are
found there, and their (symbolic) SHA-256 equals the committed record's
checksum — download, decrypt with the record's salt, and gunzip invert
gzip, encrypt, and upload. -/
theorem backup_restore_roundtrip (st : SysState) (env : BackupEnv)
    (fp : String) (st2 : SysState) (bid ver : Nat) (data : List Nat)
    (rp : String) (hc : env.content = some data)
    (hb : backup_file st env fp = (st2, BackupOutcome.success bid ver))
    (hrp1 : pyStrip rp = rp) (hrp2 : rp ≠ "") :
    ∃ st3,
      restore_file st2 env.password bid rp =
        (st3, true, [FsOp.write rp data]) ∧
      filesGet st3.files rp = some data ∧
      ∃ r, get_backup_by_id st2.backups bid = some r ∧
        r.checksum = Hash.sha256H data := by
  unfold backup_file handleBackupError add_backup_record at hb
  cases hsb : env.shouldBackup with
  | false => rw [hsb] at hb; simp at hb
  | true =>
    rw [hsb] at hb
    cases hnb : env.needsBu with
    | false => simp [hnb] at hb
    | true =>
      rw [hnb] at hb
      rw [hc] at hb
      cases hup : env.uploadOk with
      | false =>
        rw [hup] at hb
        cases hmt : env.mtimeAtHandler with
        | none => rw [hmt] at hb; simp at hb
        | some mt => rw [hmt] at hb; simp at hb
      | true =>
        rw [hup] at hb
        simp only [Bool.true_eq_false, Bool.false_eq_true, reduceIte,
          Prod.mk.injEq, BackupOutcome.success.injEq] at hb
        obtain ⟨h1, hbid, hver⟩ := hb
        subst hbid
        rw [← h1]
        have hfresh : ∀ r ∈ st.backups, r.id ≠ nextRowId st.backups :=
          fun r hr => Nat.ne_of_lt (nextRowId_gt st.backups r hr)
        have hid := get_backup_by_id_append_fresh st.backups
          { id := nextRowId st.backups, file_path := fp,
            original_size := data.length,
            compressed_size := gzSize (Gz.gz env.compression_level data),
            encrypted_size := ftokSize
              (FTok.tok (FKey.derived env.password env.saltBytes) env.iv
                (Gz.gz env.compression_level data)),
            blob_name := generate_blob_name env.device_id fp
              (get_next_version st.backups fp env.device_id) env.now,
            backup_date := env.now, checksum := Hash.sha256H data,
            version := get_next_version st.backups fp env.device_id,
            device_id := env.device_id,
            salt := saltHexEncode env.saltBytes, is_deleted := false }
          rfl hfresh
        have hdec2 : decrypt_data env.password
            (FTok.tok (FKey.derived env.password env.saltBytes) env.iv
              (Gz.gz env.compression_level data))
            (saltHexDecode (saltHexEncode env.saltBytes)) =
            some (Gz.gz env.compression_level data) := by
          rw [saltHex_roundtrip]
          simp [decrypt_data, fernetDecS]
        have hrest := restore_file_success
          (st.backups ++
            [{ id := nextRowId st.backups, file_path := fp,
               original_size := data.length,
               compressed_size := gzSize (Gz.gz env.compression_level data),
               encrypted_size := ftokSize
                 (FTok.tok (FKey.derived env.password env.saltBytes) env.iv
                   (Gz.gz env.compression_level data)),
               blob_name := generate_blob_name env.device_id fp
                 (get_next_version st.backups fp env.device_id) env.now,
               backup_date := env.now, checksum := Hash.sha256H data,
               version := get_next_version st.backups fp env.device_id,
               device_id := env.device_id,
               salt := saltHexEncode env.saltBytes, is_deleted := false }])
          (sync_upsert_completed st.sync fp env.device_id env.now)
          (storePut st.store
            (generate_blob_name env.device_id fp
              (get_next_version st.backups fp env.device_id) env.now)
            (FTok.tok (FKey.derived env.password env.saltBytes) env.iv
              (Gz.gz env.compression_level data)))
          st.files env.password (nextRowId st.backups) rp
          { id := nextRowId st.backups, file_path := fp,
            original_size := data.length,
            compressed_size := gzSize (Gz.gz env.compression_level data),
            encrypted_size := ftokSize
              (FTok.tok (FKey.derived env.password env.saltBytes) env.iv
                (Gz.gz env.compression_level data)),
            blob_name := generate_blob_name env.device_id fp
              (get_next_version st.backups fp env.device_id) env.now,
            backup_date := env.now, checksum := Hash.sha256H data,
            version := get_next_version st.backups fp env.device_id,
            device_id := env.device_id,
            salt := saltHexEncode env.saltBytes, is_deleted := false }
          (FTok.tok (FKey.derived env.password env.saltBytes) env.iv
            (Gz.gz env.compression_level data))
          (Gz.gz env.compression_level data) data hrp1 hrp2 hid
          (storeGet_put _ _ _) hdec2 rfl rfl
        exact ⟨_, hrest, filesGet_put _ _ _, _, hid, rfl⟩

/-- C2 witness: the round-trip theorem evaluated on the concrete successful
backup of bytes `[3, 250]`. -/
theorem backup_restore_roundtrip_witness :
    filesGet (restore_file (backup_file exSt exEnv "f").1 exEnv.password 1
      "/r").1.files "/r" = some [3, 250] := by
  obtain ⟨st3, h1, h2, h3⟩ := backup_restore_roundtrip exSt exEnv "f"
    (backup_file exSt exEnv "f").1 1 1 [3, 250] "/r" (by decide) (by decide)
    (by decide) (by decide)
  rw [h1]
  exact h2

theorem chunksFlatten (b : Nat) :
    ∀ (nb : Nat) (l : List Nat), l.length ≤ nb * b →
      ((List.range nb).map (fun j => (l.drop (j * b)).take b)).flatten = l := by
  intro nb
  induction nb with
  | zero =>
    intro l h
    have hl : l = [] := List.eq_nil_of_length_eq_zero (by omega)
    simp [hl]
  | succ n ih =>
    intro l h
    rw [List.range_succ_eq_map, List.map_cons, List.flatten_cons]
    have hmap : (List.range n).map
        ((fun j => (l.drop (j * b)).take b) ∘ Nat.succ) =
        (List.range n).map (fun j => ((l.drop b).drop (j * b)).take b) := by
      refine List.map_congr_left fun j hj => ?_
      simp only [Function.comp_apply]
      rw [List.drop_drop]
      have harith : Nat.succ j * b = b + j * b := by
        rw [Nat.succ_mul]
        omega
      rw [harith]
    have hlen : (l.drop b).length ≤ n * b := by
      rw [List.length_drop]
      rw [Nat.succ_mul] at h
      omega
    rw [List.map_map, hmap, ih (l.drop b) hlen]
    simp only [Nat.zero_mul, List.drop_zero]
    exact List.take_append_drop b l

theorem numBlocks_covers (n : Nat) : n ≤ numBlocks n blockSize * blockSize := by
  unfold numBlocks blockSize
  omega

theorem stageAttempts_count (idx : Nat) (bdata : List Nat) (fails i : Nat) :
    ∀ (rem attemptNo : Nat),
      (stageAttempts idx bdata fails attemptNo rem).1.countP (isStageOf i) ≤
        rem ∧
      (i ≠ idx →
        (stageAttempts idx bdata fails attemptNo rem).1.countP
          (isStageOf i) = 0) := by
  intro rem
  induction rem with
  | zero => intro attemptNo; exact ⟨Nat.le_refl 0, fun _ => rfl⟩
  | succ rm ih =>
    intro attemptNo
    unfold stageAttempts
    by_cases hf : attemptNo < fails
    · rw [if_pos hf]
      by_cases hrm : rm = 0
      · rw [if_pos hrm]
        constructor
        · by_cases hii : idx == i <;> simp [List.countP_cons, isStageOf, hii]
        · intro hne
          have : (idx == i) = false := by
            simp only [beq_eq_false_iff_ne, ne_eq]
            exact fun hcontra => hne (hcontra.symm)
          simp [List.countP_cons, isStageOf, this]
      · rw [if_neg hrm]
        rcases ih (attemptNo + 1) with ⟨ih1, ih2⟩
        constructor
        · by_cases hii : idx == i <;>
            simp [List.countP_cons, isStageOf, hii] <;> omega
        · intro hne
          have hf2 : (idx == i) = false := by
            simp only [beq_eq_false_iff_ne, ne_eq]
            exact fun hcontra => hne (hcontra.symm)
          simp [List.countP_cons, isStageOf, hf2, ih2 hne]
    · rw [if_neg hf]
      constructor
      · by_cases hii : idx == i <;> simp [List.countP_cons, isStageOf, hii]
      · intro hne
        have : (idx == i) = false := by
          simp only [beq_eq_false_iff_ne, ne_eq]
          exact fun hcontra => hne (hcontra.symm)
        simp [List.countP_cons, isStageOf, this]

theorem stageAttempts_shape (idx : Nat) (bdata : List Nat) (fails : Nat) :
    ∀ (rem attemptNo : Nat) (op : UpOp),
      op ∈ (stageAttempts idx bdata fails attemptNo rem).1 →
      (∃ a, op = UpOp.stage idx a bdata) ∨ op = UpOp.backoff 1 := by
  intro rem
  induction rem with
  | zero => intro attemptNo op hop; exact absurd hop (List.not_mem_nil op)
  | succ rm ih =>
    intro attemptNo op hop
    unfold stageAttempts at hop
    by_cases hf : attemptNo < fails
    · rw [if_pos hf] at hop
      by_cases hrm : rm = 0
      · rw [if_pos hrm] at hop
        rcases List.mem_singleton.mp hop with rfl
        exact Or.inl ⟨attemptNo, rfl⟩
      · rw [if_neg hrm] at hop
        rcases List.mem_cons.mp hop with rfl | hop2
        · exact Or.inl ⟨attemptNo, rfl⟩
        · rcases List.mem_cons.mp hop2 with rfl | hop3
          · exact Or.inr rfl
          · exact ih (attemptNo + 1) op hop3
    · rw [if_neg hf] at hop
      rcases List.mem_singleton.mp hop with rfl
      exact Or.inl ⟨attemptNo, rfl⟩

theorem blocksGo_shape (data : List Nat) (bsz : Nat) (fails : Nat → Nat) :
    ∀ (rem j : Nat) (op : UpOp),
      op ∈ (blocksGo data bsz fails j rem).1 →
      (∃ jj a, op = UpOp.stage jj a (blockData data bsz jj)) ∨
        op = UpOp.backoff 1 := by
  intro rem
  induction rem with
  | zero => intro j op hop; exact absurd hop (List.not_mem_nil op)
  | succ rm ih =>
    intro j op hop
    unfold blocksGo at hop
    by_cases hp : (stageAttempts j (blockData data bsz j) (fails j) 0 3).2
    · rw [if_pos hp] at hop
      rcases List.mem_append.mp hop with h1 | h2
      · rcases stageAttempts_shape j (blockData data bsz j) (fails j) 3 0 op
          h1 with ⟨a, rfl⟩ | rfl
        · exact Or.inl ⟨j, a, rfl⟩
        · exact Or.inr rfl
      · exact ih (j + 1) op h2
    · rw [if_neg hp] at hop
      rcases stageAttempts_shape j (blockData data bsz j) (fails j) 3 0 op
        hop with ⟨a, rfl⟩ | rfl
      · exact Or.inl ⟨j, a, rfl⟩
      · exact Or.inr rfl

theorem blocksGo_stage_ge (data : List Nat) (bsz : Nat) (fails : Nat → Nat) :
    ∀ (rem j i : Nat), i < j →
      (blocksGo data bsz fails j rem).1.countP (isStageOf i) = 0 := by
  intro rem
  induction rem with
  | zero => intro j i hij; rfl
  | succ rm ih =>
    intro j i hij
    unfold blocksGo
    have hseg := (stageAttempts_count j (blockData data bsz j) (fails j) i 3
      0).2 (Nat.ne_of_lt hij)
    by_cases hp : (stageAttempts j (blockData data bsz j) (fails j) 0 3).2
    · rw [if_pos hp]
      show ((stageAttempts j (blockData data bsz j) (fails j) 0 3).1 ++
        (blocksGo data bsz fails (j + 1) rm).1).countP (isStageOf i) = 0
      rw [List.countP_append, hseg, ih (j + 1) i (Nat.lt_succ_of_lt hij)]
    · rw [if_neg hp]
      exact hseg

theorem blocksGo_stage_count (data : List Nat) (bsz : Nat)
    (fails : Nat → Nat) :
    ∀ (rem j i : Nat),
      (blocksGo data bsz fails j rem).1.countP (isStageOf i) ≤ 3 := by
  intro rem
  induction rem with
  | zero => intro j i; exact Nat.zero_le 3
  | succ rm ih =>
    intro j i
    unfold blocksGo
    by_cases hp : (stageAttempts j (blockData data bsz j) (fails j) 0 3).2
    · rw [if_pos hp]
      show ((stageAttempts j (blockData data bsz j) (fails j) 0 3).1 ++
        (blocksGo data bsz fails (j + 1) rm).1).countP (isStageOf i) ≤ 3
      rw [List.countP_append]
      by_cases hij : i = j
      · subst hij
        have h1 := (stageAttempts_count i (blockData data bsz i) (fails i) i
          3 0).1
        have h2 := blocksGo_stage_ge data bsz fails rm (i + 1) i
          (Nat.lt_succ_self i)
        omega
      · have h1 := (stageAttempts_count j (blockData data bsz j) (fails j) i
          3 0).2 hij
        have h2 := ih (j + 1) i
        omega
    · rw [if_neg hp]
      exact (stageAttempts_count j (blockData data bsz j) (fails j) i 3 0).1

theorem blocksGo_no_commit (data : List Nat) (bsz : Nat)
    (fails : Nat → Nat) (rem j : Nat) :
    (blocksGo data bsz fails j rem).1.countP isCommitOp = 0 := by
  rw [List.countP_eq_zero]
  intro op hop
  rcases blocksGo_shape data bsz fails rem j op hop with ⟨jj, a, rfl⟩ | rfl
  · simp [isCommitOp]
  · simp [isCommitOp]

theorem upload_in_blocks_cases (data : List Nat) (fails : Nat → Nat) :
    ∃ ops ok,
      blocksGo data blockSize fails 0 (numBlocks data.length blockSize) =
        (ops, ok) ∧
      upload_in_blocks data fails =
        (if ok then ops ++ [UpOp.commit (numBlocks data.length blockSize)]
         else ops, ok) := by
  rcases hgo : blocksGo data blockSize fails 0
    (numBlocks data.length blockSize) with ⟨ops, ok⟩
  refine ⟨ops, ok, rfl, ?_⟩
  unfold upload_in_blocks
  rw [hgo]
  cases ok
  · rfl
  · rfl

/-- C7 (amended): `upload_blob` takes the block-based path exactly when the
payload is STRICTLY larger than 5 MiB (at exactly 5 MiB it takes the
standard path — see `upload_blob_threshold_cex`); on that path the staged
blocks are the 1 MiB slices `data[i:i+2^20]`, which concatenate back to
the whole payload, each block is staged at most 3 times, every backoff
between attempts sleeps 1 second, and the trace ends with exactly one
`commit_block_list` when the upload succeeds (none when it aborts). -/
theorem upload_blob_block_path (size : Nat) (data : List Nat)
    (fails : Nat → Nat) (j : Nat) :
    (usesBlockUpload size = true ↔ 5 * 1024 * 1024 < size) ∧
    ((List.range (numBlocks data.length blockSize)).map
      (blockData data blockSize)).flatten = data ∧
    (blockData data blockSize j).length =
      min blockSize (data.length - j * blockSize) ∧
    (∀ op ∈ (upload_in_blocks data fails).1, ∀ s : Nat,
      op = UpOp.backoff s → s = 1) ∧
    ((upload_in_blocks data fails).1.countP isCommitOp =
      if (upload_in_blocks data fails).2 then 1 else 0) ∧
    (upload_in_blocks data fails).1.countP (isStageOf j) ≤ 3 := by
  refine ⟨?_, ?_, ?_, ?_, ?_, ?_⟩
  · simp [usesBlockUpload, blockUploadThreshold]
  · exact chunksFlatten blockSize (numBlocks data.length blockSize) data
      (numBlocks_covers data.length)
  · simp [blockData, List.length_take, List.length_drop]
  · intro op hop s hs
    subst hs
    obtain ⟨ops, ok, hgo, hub⟩ := upload_in_blocks_cases data fails
    rw [hub] at hop
    have hmem : UpOp.backoff s ∈ ops := by
      cases ok
      · exact hop
      · rcases List.mem_append.mp hop with h1 | h2
        · exact h1
        · exact absurd (List.mem_singleton.mp h2) (by simp)
    have hmem2 : UpOp.backoff s ∈ (blocksGo data blockSize fails 0
        (numBlocks data.length blockSize)).1 := by
      rw [hgo]
      exact hmem
    rcases blocksGo_shape data blockSize fails
      (numBlocks data.length blockSize) 0 _ hmem2 with ⟨jj, a, heq⟩ | heq
    · exact absurd heq (by simp)
    · simp only [UpOp.backoff.injEq] at heq
      omega
  · obtain ⟨ops, ok, hgo, hub⟩ := upload_in_blocks_cases data fails
    rw [hub]
    have hops : ops.countP isCommitOp = 0 := by
      have h0 := blocksGo_no_commit data blockSize fails
        (numBlocks data.length blockSize) 0
      rw [hgo] at h0
      exact h0
    cases ok
    · show ops.countP isCommitOp = if false then 1 else 0
      rw [hops]
      rfl
    · show (ops ++
        [UpOp.commit (numBlocks data.length blockSize)]).countP isCommitOp =
        if true then 1 else 0
      rw [List.countP_append, hops]
      rfl
  · obtain ⟨ops, ok, hgo, hub⟩ := upload_in_blocks_cases data fails
    rw [hub]
    have hops : ops.countP (isStageOf j) ≤ 3 := by
      have h0 := blocksGo_stage_count data blockSize fails
        (numBlocks data.length blockSize) 0 j
      rw [hgo] at h0
      exact h0
    cases ok
    · exact hops
    · show (ops ++
        [UpOp.commit (numBlocks data.length blockSize)]).countP
        (isStageOf j) ≤ 3
      rw [List.countP_append]
      have h2 : ([UpOp.commit (numBlocks data.length blockSize)]).countP
          (isStageOf j) = 0 := by simp [isStageOf]
      omega

/-- C7 (counterexample): at a payload of exactly 5 MiB the code takes the
standard non-chunked upload path (`data_size > 5 * 1024 * 1024` is
strict), while the claim's "at least 5 MiB" predicts the block path; one
byte more and the block path is taken. -/
theorem upload_blob_threshold_cex :
    usesBlockUpload (5 * 1024 * 1024) = false ∧
    usesBlockUpload (5 * 1024 * 1024 + 1) = true := by
  exact ⟨by decide, by decide⟩

/-- C7 witness: the amended theorem evaluated at a 6 MiB size and at a
concrete 1-block payload whose single block fails once. -/
theorem upload_blob_block_path_witness :
    usesBlockUpload (6 * 1024 * 1024) = true ∧
    ((List.range (numBlocks 3 blockSize)).map
      (blockData [1, 2, 3] blockSize)).flatten = [1, 2, 3] ∧
    (upload_in_blocks [1, 2, 3] exFails).1.countP (isStageOf 0) ≤ 3 := by
  have h := upload_blob_block_path (6 * 1024 * 1024) [1, 2, 3] exFails 0
  exact ⟨h.1.mpr (by decide), h.2.1, h.2.2.2.2.2⟩

theorem finsetRank_card_le (s : Finset Nat) (k : Nat) :
    (s.filter (fun v => (s.filter (fun w => v < w)).card < k)).card ≤ k := by
  classical
  have hsub : ∀ v ∈ s.filter (fun v => (s.filter (fun w => v < w)).card < k),
      (s.filter (fun w => v < w)).card ∈ Finset.range k := by
    intro v hv
    rw [Finset.mem_range]
    exact (Finset.mem_filter.mp hv).2
  have hanti : ∀ a ∈ s, ∀ b ∈ s, a < b →
      (s.filter (fun w => b < w)).card < (s.filter (fun w => a < w)).card := by
    intro a ha b hb hab
    apply Finset.card_lt_card
    have hsub2 : s.filter (fun w => b < w) ⊆ s.filter (fun w => a < w) := by
      intro w hw
      rcases Finset.mem_filter.mp hw with ⟨hws, hbw⟩
      exact Finset.mem_filter.mpr ⟨hws, lt_trans hab hbw⟩
    rw [Finset.ssubset_iff_of_subset hsub2]
    exact ⟨b, Finset.mem_filter.mpr ⟨hb, hab⟩,
      fun hx => absurd (Finset.mem_filter.mp hx).2 (lt_irrefl b)⟩
  have hinj : Set.InjOn (fun v => (s.filter (fun w => v < w)).card)
      ↑(s.filter (fun v => (s.filter (fun w => v < w)).card < k)) := by
    intro a ha b hb hfab
    have hfab2 : (s.filter (fun w => a < w)).card =
        (s.filter (fun w => b < w)).card := hfab
    by_contra hne
    have ha2 : a ∈ s := (Finset.mem_filter.mp (Finset.mem_coe.mp ha)).1
    have hb2 : b ∈ s := (Finset.mem_filter.mp (Finset.mem_coe.mp hb)).1
    rcases Nat.lt_or_ge a b with h | h
    · have := hanti a ha2 b hb2 h
      omega
    · rcases Nat.lt_or_ge b a with h2 | h2
      · have := hanti b hb2 a ha2 h2
        omega
      · exact hne (by omega)
  calc (s.filter (fun v => (s.filter (fun w => v < w)).card < k)).card ≤
      (Finset.range k).card := Finset.card_le_card_of_injOn _ hsub hinj
    _ = k := Finset.card_range k

theorem countP_toFinset (V : List Nat) (hnd : V.Nodup) (p : Nat → Bool) :
    V.countP p = (V.toFinset.filter (fun x => p x = true)).card := by
  rw [List.countP_eq_length_filter]
  rw [← List.toFinset_card_of_nodup (hnd.filter p)]
  rw [List.toFinset_filter]

theorem countP_rank_le (V : List Nat) (hnd : V.Nodup) (k : Nat) :
    V.countP
      (fun v => decide (V.countP (fun w => decide (v < w)) < k)) ≤ k := by
  classical
  have hin : ∀ v, V.countP (fun w => decide (v < w)) =
      (V.toFinset.filter (fun w => v < w)).card := by
    intro v
    rw [countP_toFinset V hnd]
    congr 1
    apply Finset.filter_congr
    intro x _
    simp
  rw [countP_toFinset V hnd]
  have heq : (V.toFinset.filter (fun x =>
      decide (V.countP (fun w => decide (x < w)) < k) = true)).card =
      (V.toFinset.filter (fun v =>
        (V.toFinset.filter (fun w => v < w)).card < k)).card := by
    congr 1
    apply Finset.filter_congr
    intro x _
    rw [hin x]
    simp
  rw [heq]
  exact finsetRank_card_le V.toFinset k

theorem countP_lt_of_mem {α : Type} (l : List α) (p q : α → Bool) (a : α)
    (ha : a ∈ l) (himp : ∀ x ∈ l, p x = true → q x = true)
    (hqa : q a = true) (hpa : p a = false) :
    l.countP p < l.countP q := by
  induction l with
  | nil => exact absurd ha (List.not_mem_nil a)
  | cons b t ih =>
    rw [List.countP_cons, List.countP_cons]
    rcases List.mem_cons.mp ha with rfl | hat
    · rw [hpa, hqa]
      have hmono := List.countP_mono_left
        (fun x hx hpx => himp x (List.mem_cons_of_mem a hx) hpx)
      rw [if_neg (by simp : ¬(false = true)), if_pos rfl]
      omega
    · have hrec := ih hat fun x hx hpx =>
        himp x (List.mem_cons_of_mem b hx) hpx
      have hb : (if p b = true then 1 else 0) ≤
          (if q b = true then 1 else 0) := by
        by_cases hpb : p b = true
        · rw [if_pos hpb, if_pos (himp b (List.mem_cons_self b t) hpb)]
        · rw [if_neg hpb]
          split
          · omega
          · omega
      omega

theorem rankAbove_eq_countV (db : List BackupRow) (fp did : String)
    (v : Nat) :
    rankAbove db fp did v =
      ((db.filter (matchesND fp did)).map (fun r => r.version)).countP
        (fun w => decide (v < w)) := by
  unfold rankAbove
  rw [List.countP_map, List.countP_filter]
  apply List.countP_congr
  intro a _
  simp only [Function.comp_apply, Bool.and_eq_true]
  constructor
  · rintro ⟨h1, h2⟩
    exact ⟨h2, h1⟩
  · rintro ⟨h1, h2⟩
    exact ⟨h2, h1⟩

theorem matchesND_mark_false (fp did : String) (r : BackupRow) :
    matchesND fp did { r with is_deleted := true } = false := by
  simp [matchesND]

/-- C3: after `cleanup_old_versions(max_versions, cutoff_date, device_id)`,
for every path of that device at most `max_versions` rows remain
non-deleted (given the UNIQUE(file_path, version, device_id) table
invariant, stated as distinctness of the live versions), every remaining
non-deleted row of the device has `backup_date ≥ cutoff_date`
(= now − retention_days), and the count step marks exactly the live rows
of the device that are NOT among the `max_versions` highest versions of
their file. -/
theorem cleanup_old_versions_spec (db : List BackupRow)
    (max_versions cutoff_date : Nat) (did fp : String) :
    (((db.filter (matchesND fp did)).map (fun r => r.version)).Nodup →
      countND (cleanup_old_versions db max_versions cutoff_date did) did fp ≤
        max_versions) ∧
    (∀ r ∈ cleanup_old_versions db max_versions cutoff_date did,
      r.device_id = did → r.is_deleted = false →
        cutoff_date ≤ r.backup_date) ∧
    (∀ r ∈ db, ((countStepFn db max_versions did r).is_deleted = true ↔
      (r.is_deleted = true ∨ (r.device_id = did ∧
        max_versions ≤ rankAbove db r.file_path did r.version)))) := by
  refine ⟨?_, ?_, ?_⟩
  · intro hnd
    unfold cleanup_old_versions cleanup_count_step countND
    rw [List.countP_map, List.countP_map]
    have hmono : ∀ x ∈ db,
        ((matchesND fp did ∘ retentionFn cutoff_date did) ∘
          countStepFn db max_versions did) x = true →
        (matchesND fp did x &&
          decide (rankAbove db fp did x.version < max_versions)) = true := by
      intro r hr hm
      simp only [Function.comp_apply] at hm
      by_cases h1 : r.device_id = did ∧ r.is_deleted = false ∧
          max_versions < countND db did r.file_path ∧
          max_versions ≤ rankAbove db r.file_path did r.version
      · exfalso
        unfold countStepFn at hm
        rw [if_pos h1] at hm
        unfold retentionFn at hm
        rw [if_neg (by rintro ⟨_, habs, _⟩; simp at habs)] at hm
        rw [matchesND_mark_false] at hm
        simp at hm
      · unfold countStepFn at hm
        rw [if_neg h1] at hm
        by_cases h2 : r.device_id = did ∧ r.is_deleted = false ∧
            r.backup_date < cutoff_date
        · exfalso
          unfold retentionFn at hm
          rw [if_pos h2] at hm
          rw [matchesND_mark_false] at hm
          simp at hm
        · unfold retentionFn at hm
          rw [if_neg h2] at hm
          have hm2 := hm
          simp only [matchesND, Bool.and_eq_true, beq_iff_eq,
            Bool.not_eq_true'] at hm2
          obtain ⟨⟨hfp, hdev⟩, hdel⟩ := hm2
          rw [hm, Bool.true_and, decide_eq_true_iff]
          have hmr : matchesND r.file_path did r = true := by
            simp [matchesND, hdev, hdel]
          have hlt : rankAbove db r.file_path did r.version <
              countND db did r.file_path := by
            unfold rankAbove countND
            apply countP_lt_of_mem db _ _ r hr
            · intro x hx hpx
              exact (((Bool.and_eq_true _ _)).mp hpx).1
            · exact hmr
            · simp [matchesND, hdev, hdel]
          rw [hfp] at hlt
          have hno : ¬(max_versions < countND db did fp ∧
              max_versions ≤ rankAbove db fp did r.version) := by
            intro hcon
            refine h1 ⟨hdev, hdel, ?_, ?_⟩
            · rw [hfp]
              exact hcon.1
            · rw [hfp]
              exact hcon.2
          by_cases hrk : rankAbove db fp did r.version < max_versions
          · exact hrk
          · exfalso
            exact hno ⟨by omega, by omega⟩
    refine le_trans (List.countP_mono_left hmono) ?_
    have e1 : db.countP (fun r => matchesND fp did r &&
        decide (rankAbove db fp did r.version < max_versions)) =
        ((db.filter (matchesND fp did)).map (fun r => r.version)).countP
          (fun v => decide (rankAbove db fp did v < max_versions)) := by
      rw [List.countP_map, List.countP_filter]
      apply List.countP_congr
      intro a _
      simp only [Function.comp_apply, Bool.and_eq_true]
      constructor
      · rintro ⟨hma, hda⟩
        exact ⟨hda, hma⟩
      · rintro ⟨hda, hma⟩
        exact ⟨hma, hda⟩
    rw [e1]
    have e2 : ((db.filter (matchesND fp did)).map
        (fun r => r.version)).countP
        (fun v => decide (rankAbove db fp did v < max_versions)) =
        ((db.filter (matchesND fp did)).map (fun r => r.version)).countP
          (fun v => decide ((((db.filter (matchesND fp did)).map
            (fun r => r.version)).countP (fun w => decide (v < w))) <
              max_versions)) := by
      apply List.countP_congr
      intro v _
      rw [rankAbove_eq_countV]
    rw [e2]
    exact countP_rank_le _ hnd max_versions
  · intro r hr hdev hdel
    unfold cleanup_old_versions at hr
    rcases List.mem_map.mp hr with ⟨s, hs, rfl⟩
    by_cases hcond : s.device_id = did ∧ s.is_deleted = false ∧
        s.backup_date < cutoff_date
    · exfalso
      unfold retentionFn at hdel
      rw [if_pos hcond] at hdel
      simp at hdel
    · unfold retentionFn at hdel hdev ⊢
      rw [if_neg hcond] at hdel hdev ⊢
      have hnlt : ¬ s.backup_date < cutoff_date :=
        fun hlt => hcond ⟨hdev, hdel, hlt⟩
      omega
  · intro r hr
    unfold countStepFn
    by_cases hcond : r.device_id = did ∧ r.is_deleted = false ∧
        max_versions < countND db did r.file_path ∧
        max_versions ≤ rankAbove db r.file_path did r.version
    · rw [if_pos hcond]
      constructor
      · intro _
        exact Or.inr ⟨hcond.1, hcond.2.2.2⟩
      · intro _
        rfl
    · rw [if_neg hcond]
      constructor
      · intro hdel
        exact Or.inl hdel
      · rintro (hdel | ⟨hdev, hrank⟩)
        · exact hdel
        · cases hd : r.is_deleted with
          | true => rfl
          | false =>
            exfalso
            have hmr : matchesND r.file_path did r = true := by
              simp [matchesND, hdev, hd]
            have hlt : rankAbove db r.file_path did r.version <
                countND db did r.file_path := by
              unfold rankAbove countND
              apply countP_lt_of_mem db _ _ r hr
              · intro x hx hpx
                exact (((Bool.and_eq_true _ _)).mp hpx).1
              · exact hmr
              · simp [matchesND, hdev, hd]
            exact hcond ⟨hdev, hd, by omega, hrank⟩

/-- C3 witness: on two live versions of the same file with
`max_versions = 1`, the cleanup leaves at most one live row and the count
step marks the lower version (which is not among the 1 newest). -/
theorem cleanup_old_versions_spec_witness :
    countND (cleanup_old_versions exCleanDb 1 5 "d") "d" "f" ≤ 1 ∧
    (countStepFn exCleanDb 1 "d" exRowV1).is_deleted = true :=
  ⟨(cleanup_old_versions_spec exCleanDb 1 5 "d" "f").1 (by decide),
    ((cleanup_old_versions_spec exCleanDb 1 5 "d" "f").2.2 exRowV1
      (by decide)).mpr (Or.inr ⟨rfl, by decide⟩)⟩
